import Mathlib

/-!
Verification development for the HLS segment pipeline of `devine.core.manifests.hls`
and helpers of `devine.core.utilities`.

The Python source is shallowly embedded: pure helpers become Lean functions,
the Phase-2 sequential segment walk of `HLS.download_track` becomes an explicit
state-machine over `WalkState` that records each performed operation
(flush-decrypt, discontinuity merge, init fetch, licensing) as an event,
and the file-level `decrypt`/`merge` closures become functions over an explicit
directory model.  Python dynamic values that may be `int` or `str` are embedded
as `PyVal`; Python exceptions become an error type `PyErr` in `Except`.
-/

/-- A Python runtime value that is either an `int` or a `str`
(the byterange carry `range_offset` in `download_track` holds both over time). -/
inductive PyVal where
  | intV (n : Int)
  | strV (s : String)
deriving DecidableEq, Repr

/-- Python exception classes raised by the embedded code. -/
inductive PyErr where
  /-- `ValueError`: bad `int()` parse, tuple-unpacking mismatch, or the explicit
  `raise ValueError` in `decrypt` (the spec calls these `MalformedRange` /
  `MissingSegments`). -/
  | valueError
  /-- `TypeError`: `str + int` as in `offset + length - 1` with a `str` offset. -/
  | typeError
  /-- `AttributeError`: attribute access on `None`. -/
  | attributeError
  /-- `NotImplementedError` of `get_supported_key`, carrying the
  `unsupported_systems` list (the spec calls it `UnsupportedKeySystems`). -/
  | notImplemented (unsupported : List String)
  /-- `NotImplementedError` of `get_drm` for a single unsupported key. -/
  | notImplementedKey
deriving DecidableEq, Repr

/-- Numeric value of a list of decimal digit characters (Horner fold, as
Python `int` accumulates digits). -/
def digitsToNat (s : List Char) : Nat :=
  s.foldl (fun a c => a * 10 + (c.toNat - 48)) 0

/-- Nonempty and all decimal digits (Python `str.isdigit` on ASCII data). -/
def allDigits (s : List Char) : Bool :=
  !s.isEmpty && s.all (fun c => c.isDigit)

/-- Model of Python `int(token)` on a string: an optional sign followed by a
nonempty run of decimal digits; anything else raises `ValueError` (`none`). -/
def pyIntParse (s : String) : Option Int :=
  match s.data with
  | [] => none
  | '-' :: rest => if allDigits rest then some (-(digitsToNat rest : Int)) else none
  | l => if allDigits l then some ((digitsToNat l : Int)) else none

/-- Python `str.split(sep)` for a one-character separator: `"".split(sep)`
is `[""]`, and every occurrence of the separator opens a new field. -/
def splitOnChar (sep : Char) : List Char → List (List Char)
  | [] => [[]]
  | c :: rest =>
    let r := splitOnChar sep rest
    if c = sep then [] :: r
    else
      match r with
      | h :: t => (c :: h) :: t
      | [] => [[c]]

/-- `s.split(sep)` returning `String` fields. -/
def pySplit (s : String) (sep : Char) : List String :=
  (splitOnChar sep s.data).map String.mk

/-- Decimal digit character for `d < 10`. -/
def digitChar (d : Nat) : Char :=
  Char.ofNat (48 + d)

/-- Decimal representation of a natural number (fuel-based so that it is
kernel-computable); `natStr` below supplies the fuel. -/
def natStrAux : Nat → Nat → List Char
  | 0, _ => []
  | fuel + 1, n =>
    if n < 10 then [digitChar n]
    else natStrAux fuel (n / 10) ++ [digitChar (n % 10)]

/-- Model of Python `str(n)` for a natural number. -/
def natStr (n : Nat) : List Char :=
  natStrAux (n + 1) n

/-- Model of Python `str(n)` for an integer. -/
def intStr (n : Int) : List Char :=
  if n < 0 then '-' :: natStr n.natAbs else natStr n.natAbs

/-- `[int(x) for x in parts]`: parse every token left to right, failing
(`ValueError`) on the first non-integer. -/
def parseParts : List String → Option (List Int)
  | [] => some []
  | t :: ts =>
    match pyIntParse t, parseParts ts with
    | some v, some vs => some (v :: vs)
    | _, _ => none

/-- `HLS.calculate_byte_range` (hls.py:645-655).

```python
parts = [int(x) for x in m3u_range.split("@")]
if len(parts) != 2:
    parts.append(fallback_offset)
length, offset = parts
return f"{offset}-{offset + length - 1}"
```

The fallback offset is a `PyVal` because the caller in `download_track` stores
`byte_range.split("-")[0]` — a `str` — back into `range_offset`.  Adding an
`int` length to a `str` offset raises `TypeError`; a tuple-unpacking mismatch
(3 or more tokens, hence 4 or more parts) raises `ValueError`. -/
def calculate_byte_range (m3u_range : String) (fallback_offset : PyVal) : Except PyErr String :=
  match parseParts (pySplit m3u_range '@') with
  | none => .error .valueError
  | some parsed =>
    let parts : List PyVal :=
      if parsed.length ≠ 2 then parsed.map PyVal.intV ++ [fallback_offset]
      else parsed.map PyVal.intV
    match parts with
    | [PyVal.intV length, PyVal.intV offset] =>
      .ok (String.mk (intStr offset ++ ['-'] ++ intStr (offset + length - 1)))
    | [PyVal.intV _, PyVal.strV _] => .error .typeError
    | [PyVal.strV _, _] => .error .typeError
    | _ => .error .valueError

/-- The Phase-1 range loop of `download_track` (hls.py:245-260): starting from
`range_offset = 0`, for each segment compute the `Range` header value with
`calculate_byte_range(segment.byterange, range_offset)` and then set
`range_offset = byte_range.split("-")[0]` (a string). -/
def phase1_go : PyVal → List (Option String) → Except PyErr (List (Option String))
  | _, [] => .ok []
  | ro, none :: rest => do
    let rs ← phase1_go ro rest
    .ok (none :: rs)
  | ro, some br :: rest => do
    let byte_range ← calculate_byte_range br ro
    let rs ← phase1_go (PyVal.strV ((pySplit byte_range '-').headD "")) rest
    .ok (some byte_range :: rs)

/-- The emitted `Range` values (one per segment, `none` when the segment has no
byterange) of the Phase-1 loop. -/
def phase1_byte_ranges (byteranges : List (Option String)) : Except PyErr (List (Option String)) :=
  phase1_go (PyVal.intV 0) byteranges

/-- An `EXT-X-KEY` descriptor (`m3u8.model.Key`); identity is by value
`(method, keyformat, uri)` as the spec states. -/
structure KeyDesc where
  method : String
  keyformat : Option String
  uri : String
deriving DecidableEq, Repr

/-- `pywidevine.cdm.Cdm.urn` (external collaborator constant). -/
def widevineUrn : String :=
  "urn:uuid:edef8ba9-79d6-4ace-a3c8-27dcd51d21ed"

/-- Python truthiness of `key.keyformat` (`None` and `""` are falsy). -/
def kfTruthy : Option String → Bool
  | none => false
  | some s => s ≠ ""

/-- Python `str.lower()` (ASCII; the Widevine URN comparison only involves
ASCII characters). -/
def pyLower (s : String) : String :=
  String.mk (s.data.map Char.toLower)

/-- `key.keyformat and key.keyformat.lower() == WidevineCdm.urn`. -/
def keyformat_matches_widevine (kf : Option String) : Bool :=
  match kf with
  | none => false
  | some s => s ≠ "" && pyLower s == widevineUrn

/-- `key.method + (f" ({key.keyformat})" if key.keyformat else "")` — the entry
appended to `unsupported_systems`. -/
def unsupported_label (k : KeyDesc) : String :=
  k.method ++
    (match k.keyformat with
     | some s => if s ≠ "" then " (" ++ s ++ ")" else ""
     | none => "")

/-- `any(key.method == "NONE" for key in keys)`: short-circuits at the first
`"NONE"`; attribute access on a `None` entry raises `AttributeError`. -/
def any_method_none : List (Option KeyDesc) → Except PyErr Bool
  | [] => .ok false
  | none :: _ => .error .attributeError
  | some k :: rest => if k.method == "NONE" then .ok true else any_method_none rest

/-- The scan loop of `get_supported_key` with its `for … else` clause:
falsy (`None`) entries are skipped via `if not key: continue`; the first
supported descriptor is returned; if the loop completes, the accumulated
`unsupported_systems` list is raised. -/
def scan_keys : List (Option KeyDesc) → List String → Except PyErr (Option KeyDesc)
  | [], acc => .error (.notImplemented acc)
  | none :: rest, acc => scan_keys rest acc
  | some k :: rest, acc =>
    if k.method == "AES-128" then .ok (some k)
    else if k.method == "ISO-23001-7" then .ok (some k)
    else if keyformat_matches_widevine k.keyformat then .ok (some k)
    else scan_keys rest (acc ++ [unsupported_label k])

/-- `HLS.get_supported_key` (hls.py:527-576).  Returns `none` (the plaintext
sentinel) if any descriptor has `method=NONE`; otherwise the first supported
descriptor; otherwise raises `NotImplementedError` with the unsupported list. -/
def get_supported_key (keys : List (Option KeyDesc)) : Except PyErr (Option KeyDesc) :=
  match any_method_none keys with
  | .error e => .error e
  | .ok true => .ok none
  | .ok false => scan_keys keys []

/-- The "supported" test of a single descriptor, as the scan applies it. -/
def isSupportedKey (k : KeyDesc) : Bool :=
  k.method == "AES-128" || k.method == "ISO-23001-7" ||
    keyformat_matches_widevine k.keyformat

/-- An `EXT-X-MAP` init section (`m3u8.model.InitializationSection`); identity
is compared by value. -/
structure InitSection where
  uri : String
  byterange : Option String
deriving DecidableEq, Repr

/-- One playlist segment with the fields the Phase-2 walk consults.
`keys = []` models a falsy `segment.keys`; entries may be `None`. -/
structure Segment where
  uri : String
  byterange : Option String
  init_section : Option InitSection
  keys : List (Option KeyDesc)
  discontinuity : Bool
deriving DecidableEq, Repr

/-- A DRM handler as the walk distinguishes them: the session-level handler
taken from `track.drm[0]`, or one built by `HLS.get_drm` from a key. -/
inductive DRM where
  | sessionDrm
  | clearKey (key : KeyDesc)
  | widevine (key : KeyDesc)
deriving DecidableEq, Repr

/-- `HLS.get_drm` (hls.py:578-611): `AES-128` → ClearKey, `ISO-23001-7` or a
Widevine-URN keyformat → Widevine, otherwise `NotImplementedError`. -/
def get_drm (key : KeyDesc) : Except PyErr DRM :=
  if key.method == "AES-128" then .ok (.clearKey key)
  else if key.method == "ISO-23001-7" then .ok (.widevine key)
  else if keyformat_matches_widevine key.keyformat then .ok (.widevine key)
  else .error .notImplementedKey

/-- The mutable state of the Phase-2 sequential walk (hls.py:284-290). -/
structure WalkState where
  discon_i : Nat
  range_offset : PyVal
  map_data : Option (InitSection × List Nat)
  encryption_data : Option (Nat × Option KeyDesc × DRM)
deriving DecidableEq, Repr

/-- Operations the walk performs, recorded in order. `flushDecrypt first last`
is a call of the inner `decrypt` closure on the run `[first, last]`;
`mergeDiscon upTo fileIdx` is a call of `merge_discontinuity` collecting
indices `≤ upTo` into discontinuity file `fileIdx`. -/
inductive WEv where
  | normalize (i : Nat)
  | flushDecrypt (first last : Nat)
  | mergeDiscon (upTo : Nat) (fileIdx : Nat)
  | fetchInit (sec : InitSection) (rangeHeader : Option String)
  | license (drm : DRM) (trackKid : Option (List Nat))
deriving DecidableEq, Repr

/-- Static inputs of the walk: track kind, the `DOWNLOAD_LICENCE_ONLY` flag,
the HTTP collaborator used for init-section fetches, and the session DRM. -/
structure WalkCfg where
  isSubtitle : Bool
  licenceOnly : Bool
  fetchInitBytes : InitSection → Option String → List Nat
  sessionDrm : Option DRM

/-- The discontinuity boundary (hls.py:407-416): when `segment.discontinuity`
and `i != 0`, flush-decrypt the pending run (if an encryption context exists),
emit the discontinuity file, then advance `discon_i`, reset `range_offset`,
drop `map_data`, and rebase the surviving encryption context to `i`. -/
def disconBlock (s : WalkState) (i : Nat) (seg : Segment) : WalkState × List WEv :=
  if seg.discontinuity && i != 0 then
    ({ discon_i := s.discon_i + 1
       range_offset := PyVal.intV 0
       map_data := none
       encryption_data :=
         match s.encryption_data with
         | some (_, k, d) => some (i, k, d)
         | none => none },
     (match s.encryption_data with
      | some (first, _, _) => [WEv.flushDecrypt first (i - 1)]
      | none => []) ++ [WEv.mergeDiscon (i - 1) s.discon_i])
  else (s, [])

/-- `not map_data or segment.init_section != map_data[0]` (hls.py:418). -/
def mapChanged (map_data : Option (InitSection × List Nat)) (sec : InitSection) : Bool :=
  match map_data with
  | none => true
  | some (cur, _) => cur ≠ sec

/-- The init-section update (hls.py:418-436): on an identity change, fetch the
section (honouring a byterange against the running offset) and cache its bytes. -/
def initBlock (cfg : WalkCfg) (s : WalkState) (seg : Segment) :
    Except PyErr (WalkState × List WEv) :=
  match seg.init_section with
  | none => .ok (s, [])
  | some sec =>
    if mapChanged s.map_data sec then
      match sec.byterange with
      | some br => do
        let init_byte_range ← calculate_byte_range br s.range_offset
        let content := cfg.fetchInitBytes sec (some init_byte_range)
        .ok ({ s with
                 range_offset := PyVal.strV ((pySplit init_byte_range '-').headD "")
                 map_data := some (sec, content) },
             [WEv.fetchInit sec (some init_byte_range)])
      | none =>
        let content := cfg.fetchInitBytes sec none
        .ok ({ s with map_data := some (sec, content) }, [WEv.fetchInit sec none])
    else .ok (s, [])

/-- The key update (hls.py:438-455): select a key system, flush the previous
run on a key change (`i != 0`), drop the context on the plaintext sentinel, or
build a DRM handler (licensing Widevine) and open a fresh context at `i`. -/
def keyBlock (s : WalkState) (i : Nat) (seg : Segment) :
    Except PyErr (WalkState × List WEv) :=
  if seg.keys.isEmpty then .ok (s, [])
  else do
    let key ← get_supported_key seg.keys
    let flushEvs :=
      match s.encryption_data with
      | some (first, curKey, _) =>
        if curKey ≠ key && i != 0 then [WEv.flushDecrypt first (i - 1)] else []
      | none => []
    match key with
    | none => .ok ({ s with encryption_data := none }, flushEvs)
    | some k =>
      let changed :=
        match s.encryption_data with
        | none => true
        | some (_, curKey, _) => curKey ≠ some k
      if changed then do
        let drm ← get_drm k
        let licenseEvs :=
          match drm with
          | DRM.widevine _ => [WEv.license drm (s.map_data.map (fun md => md.2))]
          | _ => []
        .ok ({ s with encryption_data := some (i, some k, drm) }, flushEvs ++ licenseEvs)
      else .ok (s, flushEvs)

/-- The last-segment flush (hls.py:461-465): on the final segment, flush the
open run including `i` and emit the final discontinuity file. -/
def lastSegmentBlock (s : WalkState) (i : Nat) (isLast : Bool) : List WEv :=
  if isLast then
    (match s.encryption_data with
     | some (first, _, _) => [WEv.flushDecrypt first i]
     | none => []) ++ [WEv.mergeDiscon i s.discon_i]
  else []

/-- One iteration of the Phase-2 walk for segment `i` (hls.py:292-467),
composing: subtitle normalisation, discontinuity boundary, init-section
update, key update, the `DOWNLOAD_LICENCE_ONLY` short-circuit, and the
last-segment flush. -/
def walkStep (cfg : WalkCfg) (total : Nat) (s : WalkState) (i : Nat) (seg : Segment) :
    Except PyErr (WalkState × List WEv) := do
  let preEvs := if cfg.isSubtitle then [WEv.normalize i] else []
  let d := disconBlock s i seg
  let r2 ← initBlock cfg d.1 seg
  let r3 ← keyBlock r2.1 i seg
  if cfg.licenceOnly then
    .ok (r3.1, preEvs ++ d.2 ++ r2.2 ++ r3.2)
  else
    .ok (r3.1, preEvs ++ d.2 ++ r2.2 ++ r3.2 ++ lastSegmentBlock r3.1 i (i + 1 == total))

/-- The walk over the remaining segments, `i` being the index of the first. -/
def walkFrom (cfg : WalkCfg) (total : Nat) :
    WalkState → Nat → List Segment → Except PyErr (WalkState × List WEv)
  | s, _, [] => .ok (s, [])
  | s, i, seg :: rest => do
    let r ← walkStep cfg total s i seg
    let r2 ← walkFrom cfg total r.1 (i + 1) rest
    .ok (r2.1, r.2 ++ r2.2)

/-- The initial walk state (hls.py:284-290): `(0, None, session_drm)` when a
session DRM exists, else no encryption context. -/
def walkInit (cfg : WalkCfg) : WalkState :=
  { discon_i := 0
    range_offset := PyVal.intV 0
    map_data := none
    encryption_data :=
      match cfg.sessionDrm with
      | some d => some (0, none, d)
      | none => none }

/-- The whole Phase-2 walk of `download_track` on the retained segments. -/
def phase2_walk (cfg : WalkCfg) (segs : List Segment) :
    Except PyErr (WalkState × List WEv) :=
  walkFrom cfg segs.length (walkInit cfg) 0 segs

/-- Whether a segment's key block selects a supported non-`NONE` key `k`. -/
def selectsSupported (seg : Segment) (k : KeyDesc) : Prop :=
  seg.keys ≠ [] ∧ get_supported_key seg.keys = .ok (some k)

/-- No `flushDecrypt` event occurs in the list. -/
def noFlush (evs : List WEv) : Bool :=
  evs.all (fun e =>
    match e with
    | WEv.flushDecrypt _ _ => false
    | _ => true)

/-- `len(str(total_segments))`: the filename width used both by Phase 1's
`"{i:0%d}{ext}" % len(str(len(segments)))` template (hls.py:267) and by
Phase 2's `name_len` (hls.py:294). -/
def name_len (total : Nat) : Nat :=
  (natStr total).length

/-- Python `str.zfill` on a digit string / the `{i:0w}` format: left-pad with
zeros to width `w`. -/
def zfill (s : List Char) (w : Nat) : List Char :=
  List.replicate (w - s.length) '0' ++ s

/-- The Phase-1 filename stem of segment `i` (and Phase 2's
`str(i).zfill(name_len)`, hls.py:296). -/
def segment_stem (total i : Nat) : List Char :=
  zfill (natStr i) (name_len total)

/-- The merged-run stem `f"{str(a).zfill(name_len)}-{str(b).zfill(name_len)}"`
of the inner `decrypt` (hls.py:338). -/
def segment_range_stem (total a b : Nat) : List Char :=
  zfill (natStr a) (name_len total) ++ ['-'] ++ zfill (natStr b) (name_len total)

/-- The discontinuity-file stem `str(discon_i).zfill(name_len)`
(hls.py:389). -/
def discon_stem (total d : Nat) : List Char :=
  zfill (natStr d) (name_len total)

theorem splitOnChar_ne_nil (sep : Char) (l : List Char) : splitOnChar sep l ≠ [] := by
  cases l with
  | nil => simp [splitOnChar]
  | cons c rest =>
    simp only [splitOnChar]
    split
    · simp
    · split <;> simp

theorem parseParts_length {l : List String} {vs : List Int}
    (h : parseParts l = some vs) : vs.length = l.length := by
  induction l generalizing vs with
  | nil => simp [parseParts] at h; simp [← h]
  | cons t ts ih =>
    simp only [parseParts] at h
    cases hp : pyIntParse t with
    | none => rw [hp] at h; simp at h
    | some v =>
      rw [hp] at h
      cases hr : parseParts ts with
      | none => rw [hr] at h; simp at h
      | some ws =>
        rw [hr] at h
        simp at h
        simp [← h, ih hr]

theorem pySplit_ne_nil (s : String) (sep : Char) : pySplit s sep ≠ [] := by
  simp [pySplit, splitOnChar_ne_nil]

/-- C1: the spec claims that between successive byterange computations the
caller maintains `fallback_offset = E + 1` (one past the end of the previously
emitted range), so consecutive offset-less byteranges chain contiguously.  The
code instead stores `byte_range.split("-")[0]` — the string start of the
previous range — and crashes with `TypeError` (`str + int`) as soon as a later
byterange omits its offset.  On byteranges `"100@0"` then `"200"` the claimed
behaviour would emit `0-99` then `100-299`; the code emits `0-99` and then
raises. -/
theorem C1_offset_carry_crash :
    phase1_byte_ranges [some "100@0", some "200"] = .error PyErr.typeError
    ∧ calculate_byte_range "100@0" (PyVal.intV 0) = .ok "0-99"
    ∧ calculate_byte_range "200" (PyVal.intV 100) = .ok "100-299" :=
  ⟨rfl, rfl, rfl⟩

/-- C10: on the empty key list, `get_supported_key` neither returns a key nor
the plaintext sentinel: the `for … else` clause raises `NotImplementedError`
with an empty `unsupported_systems` list. -/
theorem C10_empty_key_list :
    get_supported_key [] = .error (PyErr.notImplemented []) := rfl

/-- C6: `calculate_byte_range` with an integer fallback offset `F` maps
`"L@O"` to `"O-(O+L-1)"`, maps a single-token `"L"` to `"F-(F+L-1)"`, and
raises (`MalformedRange`, a `ValueError`) exactly when some token is not an
integer or the token count is not 1 or 2. -/
theorem C6_calculate_byte_range (s : String) (F : Int) :
    (∀ L O : Int, parseParts (pySplit s '@') = some [L, O] →
      calculate_byte_range s (PyVal.intV F) =
        .ok (String.mk (intStr O ++ ['-'] ++ intStr (O + L - 1))))
    ∧ (∀ L : Int, parseParts (pySplit s '@') = some [L] →
      calculate_byte_range s (PyVal.intV F) =
        .ok (String.mk (intStr F ++ ['-'] ++ intStr (F + L - 1))))
    ∧ ((∃ e, calculate_byte_range s (PyVal.intV F) = .error e) ↔
      (parseParts (pySplit s '@') = none
        ∨ ¬((pySplit s '@').length = 1 ∨ (pySplit s '@').length = 2))) := by
  refine ⟨?_, ?_, ?_⟩
  · intro L O h
    simp [calculate_byte_range, h]
  · intro L h
    simp [calculate_byte_range, h]
  · constructor
    · rintro ⟨e, he⟩
      cases hp : parseParts (pySplit s '@') with
      | none => exact Or.inl rfl
      | some vs =>
        refine Or.inr ?_
        rintro (hlen | hlen)
        · have hv : vs.length = 1 := by rw [parseParts_length hp, hlen]
          obtain ⟨L, rfl⟩ : ∃ L, vs = [L] := by
            cases vs with
            | nil => simp at hv
            | cons a t => cases t with
              | nil => exact ⟨a, rfl⟩
              | cons b t2 => simp at hv
          simp [calculate_byte_range, hp] at he
        · have hv : vs.length = 2 := by rw [parseParts_length hp, hlen]
          obtain ⟨L, O, rfl⟩ : ∃ L O, vs = [L, O] := by
            cases vs with
            | nil => simp at hv
            | cons a t => cases t with
              | nil => simp at hv
              | cons b t2 => cases t2 with
                | nil => exact ⟨a, b, rfl⟩
                | cons c t3 => simp at hv
          simp [calculate_byte_range, hp] at he
    · intro h
      rcases h with hnone | hlen
      · exact ⟨.valueError, by simp [calculate_byte_range, hnone]⟩
      · push_neg at hlen
        obtain ⟨h1, h2⟩ := hlen
        have hpos : pySplit s '@' ≠ [] := pySplit_ne_nil s '@'
        have hge : 3 ≤ (pySplit s '@').length := by
          have hp0 : 0 < (pySplit s '@').length := List.length_pos.mpr hpos
          omega
        cases hp : parseParts (pySplit s '@') with
        | none => exact ⟨.valueError, by simp [calculate_byte_range, hp]⟩
        | some vs =>
          have hv : 3 ≤ vs.length := by rw [parseParts_length hp]; exact hge
          obtain ⟨a, b, c, rest, rfl⟩ : ∃ a b c rest, vs = a :: b :: c :: rest := by
            cases vs with
            | nil => simp at hv
            | cons a t => cases t with
              | nil => simp at hv
              | cons b t2 => cases t2 with
                | nil => simp at hv
                | cons c t3 => exact ⟨a, b, c, t3, rfl⟩
          refine ⟨.valueError, ?_⟩
          simp [calculate_byte_range, hp]

/-- Witness for C6 at the docstring example `'357392@1433' -> '1433-358824'`. -/
theorem C6_witness :
    calculate_byte_range "357392@1433" (PyVal.intV 0) = .ok "1433-358824" := by
  have h := (C6_calculate_byte_range "357392@1433" 0).1 357392 1433 rfl
  rw [h]
  rfl

theorem any_method_none_map (ks : List KeyDesc) :
    any_method_none (ks.map some) = .ok (ks.any (fun k => k.method == "NONE")) := by
  induction ks with
  | nil => rfl
  | cons k rest ih =>
    simp only [List.map_cons, any_method_none, List.any_cons]
    cases hb : k.method == "NONE" <;> simp [hb, ih]

theorem scan_keys_map (ks : List KeyDesc) (acc : List String) :
    scan_keys (ks.map some) acc =
      match ks.find? isSupportedKey with
      | some k => .ok (some k)
      | none => .error (.notImplemented (acc ++ ks.map unsupported_label)) := by
  induction ks generalizing acc with
  | nil => simp [scan_keys]
  | cons k rest ih =>
    simp only [List.map_cons, scan_keys]
    cases h1 : k.method == "AES-128" <;>
      cases h2 : k.method == "ISO-23001-7" <;>
        cases h3 : keyformat_matches_widevine k.keyformat <;>
          simp [h1, h2, h3, isSupportedKey, List.find?_cons, ih]

/-- C3: on a non-empty list of key descriptors, `get_supported_key` returns the
plaintext sentinel when any descriptor has `method=NONE`; otherwise it returns
the first descriptor whose method is `AES-128` or `ISO-23001-7` or whose
lowercased keyformat equals the Widevine URN (`isSupportedKey`, which lowers
the keyformat, so the URN comparison is case-insensitive), and raises
`NotImplementedError` listing every unsupported method/format when none
match. -/
theorem C3_key_selection (ks : List KeyDesc) (hne : ks ≠ []) :
    ((∃ k ∈ ks, k.method = "NONE") → get_supported_key (ks.map some) = .ok none)
    ∧ ((∀ k ∈ ks, k.method ≠ "NONE") →
      get_supported_key (ks.map some) =
        match ks.find? isSupportedKey with
        | some k => .ok (some k)
        | none => .error (.notImplemented (ks.map unsupported_label))) := by
  constructor
  · rintro ⟨k, hk, hm⟩
    have hany : ks.any (fun k => k.method == "NONE") = true :=
      List.any_eq_true.mpr ⟨k, hk, by simp [hm]⟩
    simp [get_supported_key, any_method_none_map, hany]
  · intro hall
    have hany : ks.any (fun k => k.method == "NONE") = false := by
      simp only [List.any_eq_false]
      intro k hk
      simpa using hall k hk
    simp [get_supported_key, any_method_none_map, hany, scan_keys_map]

/-- Witness for C3: the `NONE` precedence and the first-supported scan on
concrete inputs (including a mixed-case Widevine URN keyformat). -/
theorem C3_witness :
    get_supported_key
        ([⟨"SAMPLE-AES", none, "u1"⟩, ⟨"AES-128", some "X", "u2"⟩].map some) =
      .ok (some ⟨"AES-128", some "X", "u2"⟩)
    ∧ get_supported_key
        ([⟨"AES-128", none, "u1"⟩, ⟨"NONE", none, "u2"⟩].map some) = .ok none
    ∧ get_supported_key
        ([⟨"SAMPLE-AES", some "URN:UUID:EDEF8BA9-79D6-4ACE-A3C8-27DCD51D21ED", "u3"⟩].map some) =
      .ok (some ⟨"SAMPLE-AES", some "URN:UUID:EDEF8BA9-79D6-4ACE-A3C8-27DCD51D21ED", "u3"⟩) := by
  refine ⟨?_, ?_, ?_⟩
  · have h := (C3_key_selection [⟨"SAMPLE-AES", none, "u1"⟩, ⟨"AES-128", some "X", "u2"⟩]
      (by simp)).2 (by decide)
    rw [h]
    rfl
  · exact (C3_key_selection [⟨"AES-128", none, "u1"⟩, ⟨"NONE", none, "u2"⟩] (by simp)).1
      ⟨⟨"NONE", none, "u2"⟩, by simp, rfl⟩
  · have h := (C3_key_selection
      [⟨"SAMPLE-AES", some "URN:UUID:EDEF8BA9-79D6-4ACE-A3C8-27DCD51D21ED", "u3"⟩]
      (by simp)).2 (by decide)
    rw [h]
    rfl

theorem natStrAux_fuel : ∀ (n fuel fuel' : Nat), n < fuel → n < fuel' →
    natStrAux fuel n = natStrAux fuel' n := by
  intro n
  induction n using Nat.strong_induction_on with
  | _ n ih =>
    intro fuel fuel' h h'
    cases fuel with
    | zero => omega
    | succ f =>
      cases fuel' with
      | zero => omega
      | succ f' =>
        simp only [natStrAux]
        split
        · rfl
        · rename_i h10
          rw [ih (n / 10) (by omega) f f' (by omega) (by omega)]

theorem natStr_eq (n : Nat) :
    natStr n = if n < 10 then [digitChar n] else natStr (n / 10) ++ [digitChar (n % 10)] := by
  by_cases h : n < 10
  · rw [if_pos h]
    simp only [natStr, natStrAux, if_pos h]
  · rw [if_neg h]
    show natStrAux (n + 1) n = natStr (n / 10) ++ [digitChar (n % 10)]
    simp only [natStrAux, if_neg h]
    unfold natStr
    rw [natStrAux_fuel (n / 10) n (n / 10 + 1) (by omega) (by omega)]

theorem natStr_ne_nil (n : Nat) : natStr n ≠ [] := by
  rw [natStr_eq]
  split <;> simp

theorem natStr_length_le {m n : Nat} (h : m ≤ n) :
    (natStr m).length ≤ (natStr n).length := by
  induction n using Nat.strong_induction_on generalizing m with
  | _ n ih =>
    by_cases hn : n < 10
    · have hm : m < 10 := by omega
      rw [natStr_eq m, natStr_eq n, if_pos hm, if_pos hn]
      simp
    · by_cases hm : m < 10
      · rw [natStr_eq m, natStr_eq n, if_pos hm, if_neg hn]
        have hpos := List.length_pos.mpr (natStr_ne_nil (n / 10))
        simp only [List.length_singleton, List.length_append, List.length_cons]
        omega
      · rw [natStr_eq m, natStr_eq n, if_neg hm, if_neg hn]
        have h1 : m / 10 ≤ n / 10 := Nat.div_le_div_right h
        have h2 : n / 10 < n := by omega
        have h3 := ih (n / 10) h2 h1
        simp only [List.length_append, List.length_cons]
        omega

theorem name_len_eq_log {N : Nat} (h : 1 ≤ N) : name_len N = Nat.log 10 N + 1 := by
  induction N using Nat.strong_induction_on with
  | _ N ih =>
    unfold name_len
    rw [natStr_eq]
    by_cases hN : N < 10
    · rw [if_pos hN]
      have h0 : Nat.log 10 N = 0 := Nat.log_eq_zero_iff.mpr (Or.inl hN)
      simp [h0]
    · rw [if_neg hN]
      have h2 : N / 10 < N := by omega
      have h3 : 1 ≤ N / 10 := by omega
      have ih' := ih (N / 10) h2 h3
      have hlog : Nat.log 10 (N / 10) = Nat.log 10 N - 1 := Nat.log_div_base 10 N
      have hpos : 0 < Nat.log 10 N := Nat.log_pos (by norm_num) (by omega)
      unfold name_len at ih'
      simp only [List.length_append, List.length_cons, List.length_nil]
      omega

theorem zfill_length (s : List Char) (w : Nat) : (zfill s w).length = max w s.length := by
  simp [zfill]
  omega

/-- C7 counterexample: the claim says the padded width is `ceil(log10(N))`
(`Nat.clog 10 N`); for `N = 10` retained segments the code uses
`len(str(10)) = 2` digits while `ceil(log10(10)) = 1`. -/
theorem C7_counterexample :
    name_len 10 = 2 ∧ Nat.clog 10 10 = 1 ∧ name_len 10 ≠ Nat.clog 10 10 := by
  have hc : Nat.clog 10 10 = 1 := by
    have h := Nat.clog_pow 10 1 (by norm_num)
    simpa using h
  refine ⟨rfl, hc, ?_⟩
  rw [hc]
  decide

/-- C7 amended: for `N ≥ 1` retained segments, the filename width used by both
phases is `len(str(N))` — the number of decimal digits of `N`, that is
`floor(log10 N) + 1` — every Phase-1 segment stem is padded to exactly that
width, and the Phase-2 run and discontinuity stems use the same width. -/
theorem C7_filename_width (N i a b d : Nat) (hN : 1 ≤ N)
    (hi : i < N) (ha : a < N) (hb : b < N) (hd : d < N) :
    name_len N = Nat.log 10 N + 1
    ∧ (segment_stem N i).length = name_len N
    ∧ (discon_stem N d).length = name_len N
    ∧ segment_range_stem N a b = segment_stem N a ++ ['-'] ++ segment_stem N b := by
  have hlen : ∀ j, j < N → (zfill (natStr j) (name_len N)).length = name_len N := by
    intro j hj
    rw [zfill_length]
    have hle := natStr_length_le (Nat.le_of_lt hj)
    unfold name_len
    omega
  exact ⟨name_len_eq_log hN, hlen i hi, hlen d hd, rfl⟩

/-- Witness for C7 at `N = 10`. -/
theorem C7_witness :
    name_len 10 = Nat.log 10 10 + 1
    ∧ (segment_stem 10 7).length = name_len 10
    ∧ (discon_stem 10 1).length = name_len 10
    ∧ segment_range_stem 10 0 9 = segment_stem 10 0 ++ ['-'] ++ segment_stem 10 9 :=
  C7_filename_width 10 7 0 9 1 (by decide) (by decide) (by decide) (by decide) (by decide)

theorem noFlush_append (a b : List WEv) : noFlush (a ++ b) = (noFlush a && noFlush b) := by
  simp [noFlush, List.all_append]

theorem initBlock_preserves (cfg : WalkCfg) (s : WalkState) (seg : Segment) :
    ∀ out, initBlock cfg s seg = .ok out →
      out.1.encryption_data = s.encryption_data
      ∧ out.1.discon_i = s.discon_i
      ∧ noFlush out.2 = true := by
  intro out h
  unfold initBlock at h
  split at h
  · cases h
    exact ⟨rfl, rfl, rfl⟩
  · rename_i sec hsec
    cases hch : mapChanged s.map_data sec with
    | false =>
      rw [hch] at h
      simp only [Bool.false_eq_true, if_false] at h
      cases h
      exact ⟨rfl, rfl, rfl⟩
    | true =>
      rw [hch] at h
      simp only [if_true] at h
      split at h
      · rename_i br hbr
        cases hc : calculate_byte_range br s.range_offset with
        | error e => rw [hc] at h; simp [Bind.bind, Except.bind] at h
        | ok v =>
          rw [hc] at h
          simp only [Bind.bind, Except.bind] at h
          cases h
          exact ⟨rfl, rfl, rfl⟩
      · cases h
        exact ⟨rfl, rfl, rfl⟩

theorem disconBlock_plain {s : WalkState} (hs : s.encryption_data = none)
    (i : Nat) (seg : Segment) :
    (disconBlock s i seg).1.encryption_data = none
    ∧ noFlush (disconBlock s i seg).2 = true := by
  unfold disconBlock
  split
  · simp [hs, noFlush]
  · simp [hs, noFlush]

theorem keyBlock_none_key {s : WalkState} {i : Nat} {seg : Segment}
    (hk : get_supported_key seg.keys = .ok none) :
    ∀ out, keyBlock s i seg = .ok out → out.1.encryption_data = none := by
  intro out h
  unfold keyBlock at h
  split at h
  · rename_i hemp
    rw [List.isEmpty_iff] at hemp
    rw [hemp] at hk
    simp [get_supported_key, any_method_none, scan_keys] at hk
  · rw [hk] at h
    simp only [Bind.bind, Except.bind] at h
    cases h
    rfl

theorem keyBlock_plain {s : WalkState} (hs : s.encryption_data = none)
    (i : Nat) (seg : Segment) :
    ∀ out, keyBlock s i seg = .ok out →
      noFlush out.2 = true
      ∧ (out.1.encryption_data = none
         ∨ ∃ k drm, seg.keys ≠ [] ∧ get_supported_key seg.keys = .ok (some k)
             ∧ out.1.encryption_data = some (i, some k, drm)) := by
  intro out h
  unfold keyBlock at h
  split at h
  · cases h
    exact ⟨rfl, Or.inl hs⟩
  · rename_i hemp
    cases hg : get_supported_key seg.keys with
    | error e => rw [hg] at h; simp [Bind.bind, Except.bind] at h
    | ok key =>
      rw [hg] at h
      simp only [Bind.bind, Except.bind, hs] at h
      cases key with
      | none =>
        cases h
        exact ⟨rfl, Or.inl rfl⟩
      | some k =>
        simp only at h
        cases hd : get_drm k with
        | error e => rw [hd] at h; simp [Bind.bind, Except.bind] at h
        | ok drm =>
          rw [hd] at h
          simp only [Bind.bind, Except.bind] at h
          cases h
          refine ⟨?_, Or.inr ⟨k, drm, ?_, rfl, rfl⟩⟩
          · cases drm <;> rfl
          · rw [List.isEmpty_iff] at hemp
            simpa using hemp

theorem lastSegmentBlock_plain {s : WalkState} (hs : s.encryption_data = none)
    (i : Nat) (b : Bool) : noFlush (lastSegmentBlock s i b) = true := by
  unfold lastSegmentBlock
  split
  · simp [hs, noFlush]
  · rfl

theorem walkStep_ok {cfg : WalkCfg} {total : Nat} {s : WalkState} {i : Nat}
    {seg : Segment} {out : WalkState × List WEv}
    (h : walkStep cfg total s i seg = .ok out) :
    ∃ r2 r3,
      initBlock cfg (disconBlock s i seg).1 seg = .ok r2
      ∧ keyBlock r2.1 i seg = .ok r3
      ∧ out.1 = r3.1
      ∧ out.2 = (if cfg.isSubtitle then [WEv.normalize i] else [])
          ++ (disconBlock s i seg).2 ++ r2.2 ++ r3.2
          ++ (if cfg.licenceOnly then []
              else lastSegmentBlock r3.1 i (i + 1 == total)) := by
  simp only [walkStep] at h
  cases hi : initBlock cfg (disconBlock s i seg).1 seg with
  | error e => rw [hi] at h; simp [Bind.bind, Except.bind] at h
  | ok r2 =>
    rw [hi] at h
    simp only [Bind.bind, Except.bind] at h
    cases hk : keyBlock r2.1 i seg with
    | error e => rw [hk] at h; simp at h
    | ok r3 =>
      rw [hk] at h
      simp only at h
      split at h <;> cases h
      · rename_i hlic
        refine ⟨r2, r3, rfl, hk, rfl, ?_⟩
        simp [hlic]
      · rename_i hlic
        refine ⟨r2, r3, rfl, hk, rfl, ?_⟩
        simp [hlic]

theorem keyBlock_install {s : WalkState} (hs : s.encryption_data = none)
    {i : Nat} {seg : Segment} {k : KeyDesc}
    (hg : get_supported_key seg.keys = .ok (some k)) :
    ∀ out, keyBlock s i seg = .ok out →
      ∃ drm, out.1.encryption_data = some (i, some k, drm) := by
  intro out h
  unfold keyBlock at h
  split at h
  · rename_i hemp
    rw [List.isEmpty_iff] at hemp
    rw [hemp] at hg
    simp [get_supported_key, any_method_none, scan_keys] at hg
  · rw [hg] at h
    simp only [Bind.bind, Except.bind, hs] at h
    cases hd : get_drm k with
    | error e => rw [hd] at h; simp [Bind.bind, Except.bind] at h
    | ok drm =>
      rw [hd] at h
      simp only [Bind.bind, Except.bind] at h
      cases h
      exact ⟨drm, rfl⟩

theorem walkStep_plain {cfg : WalkCfg} {total : Nat} {s : WalkState} {i : Nat}
    {seg : Segment} {out : WalkState × List WEv}
    (hs : s.encryption_data = none)
    (hno : ¬ ∃ k, selectsSupported seg k)
    (h : walkStep cfg total s i seg = .ok out) :
    noFlush out.2 = true ∧ out.1.encryption_data = none := by
  obtain ⟨r2, r3, hi, hk, hout1, hout2⟩ := walkStep_ok h
  have hd := disconBlock_plain hs i seg
  have hi' := initBlock_preserves cfg (disconBlock s i seg).1 seg r2 hi
  have henc2 : r2.1.encryption_data = none := by rw [hi'.1, hd.1]
  have hk' := keyBlock_plain henc2 i seg r3 hk
  have henc3 : r3.1.encryption_data = none := by
    rcases hk'.2 with h1 | ⟨k, drm, hne, hsel, _⟩
    · exact h1
    · exact absurd ⟨k, hne, hsel⟩ hno
  refine ⟨?_, hout1 ▸ henc3⟩
  rw [hout2]
  simp only [noFlush_append, Bool.and_eq_true]
  refine ⟨⟨⟨⟨?_, hd.2⟩, hi'.2.2⟩, hk'.1⟩, ?_⟩
  · cases cfg.isSubtitle <;> rfl
  · cases hlic : cfg.licenceOnly
    · simp only [Bool.false_eq_true, if_false]
      exact lastSegmentBlock_plain henc3 i (i + 1 == total)
    · rfl

theorem walkFrom_plain (cfg : WalkCfg) (total : Nat) :
    ∀ (segs : List Segment) (s : WalkState) (i : Nat) (out : WalkState × List WEv),
      s.encryption_data = none →
      (∀ seg ∈ segs, ¬ ∃ k, selectsSupported seg k) →
      walkFrom cfg total s i segs = .ok out →
      noFlush out.2 = true ∧ out.1.encryption_data = none := by
  intro segs
  induction segs with
  | nil =>
    intro s i out hs _ h
    cases h
    exact ⟨rfl, hs⟩
  | cons seg rest ih =>
    intro s i out hs hall h
    unfold walkFrom at h
    cases hw : walkStep cfg total s i seg with
    | error e => rw [hw] at h; simp [Bind.bind, Except.bind] at h
    | ok r =>
      rw [hw] at h
      simp only [Bind.bind, Except.bind] at h
      cases hr : walkFrom cfg total r.1 (i + 1) rest with
      | error e => rw [hr] at h; simp at h
      | ok r2 =>
        rw [hr] at h
        simp only at h
        cases h
        have hstep := walkStep_plain hs (hall seg (List.mem_cons_self seg rest)) hw
        have hrest := ih r.1 (i + 1) r2 hstep.2
          (fun t ht => hall t (List.mem_cons_of_mem seg ht)) hr
        constructor
        · simp only [noFlush_append, Bool.and_eq_true]
          exact ⟨hstep.1, hrest.1⟩
        · exact hrest.2

theorem walkStep_none_key {cfg : WalkCfg} {total : Nat} {s : WalkState} {i : Nat}
    {seg : Segment} {out : WalkState × List WEv}
    (hk : get_supported_key seg.keys = .ok none)
    (h : walkStep cfg total s i seg = .ok out) :
    out.1.encryption_data = none := by
  obtain ⟨r2, r3, _, hkb, hout1, _⟩ := walkStep_ok h
  rw [hout1]
  exact keyBlock_none_key hk r3 hkb

/-- C2: at a discontinuity boundary `i > 0` the walk performs exactly one
flush-decrypt of the pending run `[first, i-1]` (present exactly when an
encryption context exists) and exactly one discontinuity-file emission
covering indices `≤ i-1` into file `discon_i`; the state entering the rest of
the iteration has the discontinuity counter incremented, the carried byterange
offset reset to integer `0`, the cached init data cleared, and a surviving
encryption context rebased to `(i, key, drm)`; and in `walkStep` these events
precede every event of the rest of the iteration. -/
theorem C2_discontinuity_boundary (cfg : WalkCfg) (total i : Nat) (s : WalkState)
    (seg : Segment) (hi : 0 < i) (hd : seg.discontinuity = true) :
    (disconBlock s i seg).2 =
      (match s.encryption_data with
       | some (first, _, _) => [WEv.flushDecrypt first (i - 1)]
       | none => []) ++ [WEv.mergeDiscon (i - 1) s.discon_i]
    ∧ (disconBlock s i seg).1 =
      { discon_i := s.discon_i + 1
        range_offset := PyVal.intV 0
        map_data := none
        encryption_data :=
          match s.encryption_data with
          | some (_, k, d) => some (i, k, d)
          | none => none }
    ∧ ∀ out, walkStep cfg total s i seg = .ok out →
        ∃ post, out.2 = (if cfg.isSubtitle then [WEv.normalize i] else [])
            ++ (disconBlock s i seg).2 ++ post := by
  have hcond : (seg.discontinuity && i != 0) = true := by
    simp [hd, bne_iff_ne]
    omega
  refine ⟨?_, ?_, ?_⟩
  · unfold disconBlock
    rw [if_pos hcond]
  · unfold disconBlock
    rw [if_pos hcond]
  · intro out h
    obtain ⟨r2, r3, _, _, _, hout2⟩ := walkStep_ok h
    refine ⟨r2.2 ++ r3.2
      ++ (if cfg.licenceOnly then [] else lastSegmentBlock r3.1 i (i + 1 == total)), ?_⟩
    rw [hout2]
    simp [List.append_assoc]

/-- Shared sample configuration: an audio/video track, licence-only off, an
init fetch returning no bytes, session DRM present. -/
def sampleCfg : WalkCfg :=
  { isSubtitle := false
    licenceOnly := false
    fetchInitBytes := fun _ _ => []
    sessionDrm := some DRM.sessionDrm }

/-- Shared sample walk state holding the initial session encryption context. -/
def sampleEncState : WalkState :=
  { discon_i := 0
    range_offset := PyVal.intV 0
    map_data := none
    encryption_data := some (0, none, DRM.sessionDrm) }

/-- A segment carrying the discontinuity flag. -/
def sampleDiscSeg : Segment :=
  { uri := "seg2.ts"
    byterange := none
    init_section := none
    keys := []
    discontinuity := true }

/-- Witness for C2 at `i = 2` with an open session-DRM run from index 0. -/
theorem C2_witness :
    (disconBlock sampleEncState 2 sampleDiscSeg).2 =
      [WEv.flushDecrypt 0 1, WEv.mergeDiscon 1 0]
    ∧ (disconBlock sampleEncState 2 sampleDiscSeg).1 =
      { discon_i := 1
        range_offset := PyVal.intV 0
        map_data := none
        encryption_data := some (2, none, DRM.sessionDrm) } := by
  have h := C2_discontinuity_boundary sampleCfg 3 2 sampleEncState sampleDiscSeg
    (by decide) rfl
  refine ⟨?_, ?_⟩
  · rw [h.1]
    rfl
  · rw [h.2.1]
    rfl

/-- C4: once a key block selects `method=NONE`, the post-step encryption
context is nil; from a nil context a step whose key block selects no supported
non-`NONE` key emits no flush-decrypt and keeps the context nil; from a nil
context a key block selecting supported key `k` at index `i` installs the
fresh context `(i, some k, drm)`; and over any run of the walk started with a
nil context in which no segment selects a supported key, no flush-decrypt is
ever emitted and the context stays nil. -/
theorem C4_plaintext_runs (cfg : WalkCfg) (total : Nat) :
    (∀ s i seg out, get_supported_key seg.keys = .ok none →
      walkStep cfg total s i seg = .ok out → out.1.encryption_data = none)
    ∧ (∀ s i seg out, s.encryption_data = none →
      (¬ ∃ k, selectsSupported seg k) → walkStep cfg total s i seg = .ok out →
      noFlush out.2 = true ∧ out.1.encryption_data = none)
    ∧ (∀ s i seg out k, s.encryption_data = none → selectsSupported seg k →
      walkStep cfg total s i seg = .ok out →
      ∃ drm, out.1.encryption_data = some (i, some k, drm))
    ∧ (∀ segs s i out, s.encryption_data = none →
      (∀ seg ∈ segs, ¬ ∃ k, selectsSupported seg k) →
      walkFrom cfg total s i segs = .ok out →
      noFlush out.2 = true ∧ out.1.encryption_data = none) := by
  refine ⟨?_, ?_, ?_, ?_⟩
  · intro s i seg out hk h
    exact walkStep_none_key hk h
  · intro s i seg out hs hno h
    exact walkStep_plain hs hno h
  · intro s i seg out k hs hsel h
    obtain ⟨r2, r3, hi2, hk3, hout1, _⟩ := walkStep_ok h
    have hd := disconBlock_plain hs i seg
    have hi' := initBlock_preserves cfg (disconBlock s i seg).1 seg r2 hi2
    have henc2 : r2.1.encryption_data = none := by rw [hi'.1, hd.1]
    obtain ⟨drm, hdrm⟩ := keyBlock_install henc2 hsel.2 r3 hk3
    exact ⟨drm, hout1 ▸ hdrm⟩
  · intro segs s i out hs hall h
    exact walkFrom_plain cfg total segs s i out hs hall h

/-- Shared sample configuration without session DRM. -/
def plainCfg : WalkCfg :=
  { isSubtitle := false
    licenceOnly := false
    fetchInitBytes := fun _ _ => []
    sessionDrm := none }

/-- A segment whose key block selects `method=NONE`. -/
def segNoneKey : Segment :=
  { uri := "a.ts"
    byterange := none
    init_section := none
    keys := [some ⟨"NONE", none, "k"⟩]
    discontinuity := false }

/-- A segment with no key block. -/
def segPlain : Segment :=
  { uri := "b.ts"
    byterange := none
    init_section := none
    keys := []
    discontinuity := false }

/-- Witness for C4: a two-segment plaintext run (a `NONE` key block, then no
key block) flushes nothing and ends with a nil context. -/
theorem C4_witness :
    noFlush [WEv.mergeDiscon 1 0] = true
    ∧ (WalkState.mk 0 (PyVal.intV 0) none none).encryption_data = none := by
  have hall : ∀ seg ∈ [segNoneKey, segPlain], ¬ ∃ k, selectsSupported seg k := by
    intro seg hseg
    rintro ⟨k, hne, hsel⟩
    rcases List.mem_cons.mp hseg with rfl | hseg2
    · have hval : get_supported_key segNoneKey.keys = .ok none := rfl
      rw [hval] at hsel
      simp at hsel
    · rcases List.mem_cons.mp hseg2 with rfl | hseg3
      · exact hne rfl
      · simp at hseg3
  exact (C4_plaintext_runs plainCfg 2).2.2.2 [segNoneKey, segPlain] (walkInit plainCfg) 0
    (⟨0, PyVal.intV 0, none, none⟩, [WEv.mergeDiscon 1 0]) rfl hall rfl

/-- A Unicode scalar value: below 0x110000 and not a surrogate.  Python
decoders only produce such code points, and `str.encode("utf8")` accepts
exactly these. -/
def isScalar (c : Nat) : Bool :=
  decide (c < 1114112) && !(decide (55296 ≤ c) && decide (c ≤ 57343))

/-- Every code point of the string is a scalar value. -/
def allScalar (s : List Nat) : Bool :=
  s.all isScalar

/-- A UTF-8 continuation byte `0x80..0xBF`. -/
def isCont (b : Nat) : Bool :=
  decide (128 ≤ b) && decide (b ≤ 191)

/-- Strict UTF-8 validity of a byte string, as Python's `bytes.decode("utf8")`
checks it: no overlong forms, no surrogates, nothing above `U+10FFFF`. -/
def validUtf8 : List Nat → Bool
  | [] => true
  | b :: rest =>
    if b < 128 then validUtf8 rest
    else if 194 ≤ b ∧ b ≤ 223 then
      match rest with
      | c1 :: rest2 => isCont c1 && validUtf8 rest2
      | [] => false
    else if b = 224 then
      match rest with
      | c1 :: c2 :: rest2 =>
        (decide (160 ≤ c1) && decide (c1 ≤ 191)) && isCont c2 && validUtf8 rest2
      | _ => false
    else if (225 ≤ b ∧ b ≤ 236) ∨ b = 238 ∨ b = 239 then
      match rest with
      | c1 :: c2 :: rest2 => isCont c1 && isCont c2 && validUtf8 rest2
      | _ => false
    else if b = 237 then
      match rest with
      | c1 :: c2 :: rest2 =>
        (decide (128 ≤ c1) && decide (c1 ≤ 159)) && isCont c2 && validUtf8 rest2
      | _ => false
    else if b = 240 then
      match rest with
      | c1 :: c2 :: c3 :: rest2 =>
        (decide (144 ≤ c1) && decide (c1 ≤ 191)) && isCont c2 && isCont c3 && validUtf8 rest2
      | _ => false
    else if 241 ≤ b ∧ b ≤ 243 then
      match rest with
      | c1 :: c2 :: c3 :: rest2 =>
        isCont c1 && isCont c2 && isCont c3 && validUtf8 rest2
      | _ => false
    else if b = 244 then
      match rest with
      | c1 :: c2 :: c3 :: rest2 =>
        (decide (128 ≤ c1) && decide (c1 ≤ 143)) && isCont c2 && isCont c3 && validUtf8 rest2
      | _ => false
    else false

/-- UTF-8 encoding of one scalar value. -/
def encodeChar (c : Nat) : List Nat :=
  if c < 128 then [c]
  else if c < 2048 then [192 + c / 64, 128 + c % 64]
  else if c < 65536 then [224 + c / 4096, 128 + (c / 64) % 64, 128 + c % 64]
  else [240 + c / 262144, 128 + (c / 4096) % 64, 128 + (c / 64) % 64, 128 + c % 64]

/-- `str.encode("utf8")` on a list of scalar values. -/
def utf8Encode : List Nat → List Nat
  | [] => []
  | c :: cs => encodeChar c ++ utf8Encode cs

theorem validUtf8_cons (b : Nat) (rest : List Nat) :
    validUtf8 (b :: rest) =
      (if b < 128 then validUtf8 rest
      else if 194 ≤ b ∧ b ≤ 223 then
        match rest with
        | c1 :: rest2 => isCont c1 && validUtf8 rest2
        | [] => false
      else if b = 224 then
        match rest with
        | c1 :: c2 :: rest2 =>
          (decide (160 ≤ c1) && decide (c1 ≤ 191)) && isCont c2 && validUtf8 rest2
        | _ => false
      else if (225 ≤ b ∧ b ≤ 236) ∨ b = 238 ∨ b = 239 then
        match rest with
        | c1 :: c2 :: rest2 => isCont c1 && isCont c2 && validUtf8 rest2
        | _ => false
      else if b = 237 then
        match rest with
        | c1 :: c2 :: rest2 =>
          (decide (128 ≤ c1) && decide (c1 ≤ 159)) && isCont c2 && validUtf8 rest2
        | _ => false
      else if b = 240 then
        match rest with
        | c1 :: c2 :: c3 :: rest2 =>
          (decide (144 ≤ c1) && decide (c1 ≤ 191)) && isCont c2 && isCont c3 && validUtf8 rest2
        | _ => false
      else if 241 ≤ b ∧ b ≤ 243 then
        match rest with
        | c1 :: c2 :: c3 :: rest2 =>
          isCont c1 && isCont c2 && isCont c3 && validUtf8 rest2
        | _ => false
      else if b = 244 then
        match rest with
        | c1 :: c2 :: c3 :: rest2 =>
          (decide (128 ≤ c1) && decide (c1 ≤ 143)) && isCont c2 && isCont c3 && validUtf8 rest2
        | _ => false
      else false) := by
  match rest with
  | [] => rfl
  | [c1] => rfl
  | [c1, c2] => rfl
  | c1 :: c2 :: c3 :: rest2 => rfl

theorem validUtf8_encodeChar (c : Nat) (h : isScalar c = true) (rest : List Nat) :
    validUtf8 (encodeChar c ++ rest) = validUtf8 rest := by
  simp only [isScalar, Bool.and_eq_true, Bool.not_eq_true', Bool.and_eq_false_iff,
    decide_eq_true_eq, decide_eq_false_iff_not] at h
  obtain ⟨h1, h2⟩ := h
  unfold encodeChar
  by_cases hA : c < 128
  · rw [if_pos hA]
    show validUtf8 (c :: rest) = validUtf8 rest
    rw [validUtf8_cons, if_pos hA]
  · rw [if_neg hA]
    by_cases hB : c < 2048
    · rw [if_pos hB]
      show validUtf8 ((192 + c / 64) :: (128 + c % 64) :: rest) = validUtf8 rest
      rw [validUtf8_cons, if_neg (by omega), if_pos (by omega)]
      show (isCont (128 + c % 64) && validUtf8 rest) = validUtf8 rest
      have hc1 : isCont (128 + c % 64) = true := by
        simp only [isCont, Bool.and_eq_true, decide_eq_true_eq]
        omega
      rw [hc1, Bool.true_and]
    · rw [if_neg hB]
      by_cases hC : c < 65536
      · rw [if_pos hC]
        show validUtf8 ((224 + c / 4096) :: (128 + (c / 64) % 64) :: (128 + c % 64) :: rest)
          = validUtf8 rest
        have hcont2 : isCont (128 + c % 64) = true := by
          simp only [isCont, Bool.and_eq_true, decide_eq_true_eq]
          omega
        rw [validUtf8_cons, if_neg (by omega), if_neg (by omega)]
        by_cases hD : c < 4096
        · rw [if_pos (by omega)]
          show ((decide (160 ≤ 128 + (c / 64) % 64) && decide (128 + (c / 64) % 64 ≤ 191))
              && isCont (128 + c % 64) && validUtf8 rest) = validUtf8 rest
          have hr1 : decide (160 ≤ 128 + (c / 64) % 64) = true := by
            simp only [decide_eq_true_eq]
            omega
          have hr2 : decide (128 + (c / 64) % 64 ≤ 191) = true := by
            simp only [decide_eq_true_eq]
            omega
          rw [hr1, hr2, hcont2]
          rfl
        · rw [if_neg (by omega)]
          by_cases hE : c < 53248
          · rw [if_pos (by omega)]
            show (isCont (128 + (c / 64) % 64) && isCont (128 + c % 64) && validUtf8 rest)
              = validUtf8 rest
            have hr1 : isCont (128 + (c / 64) % 64) = true := by
              simp only [isCont, Bool.and_eq_true, decide_eq_true_eq]
              omega
            rw [hr1, hcont2]
            rfl
          · by_cases hF : c < 57344
            · rw [if_neg (by omega), if_pos (by omega)]
              show ((decide (128 ≤ 128 + (c / 64) % 64) && decide (128 + (c / 64) % 64 ≤ 159))
                  && isCont (128 + c % 64) && validUtf8 rest) = validUtf8 rest
              have hr1 : decide (128 ≤ 128 + (c / 64) % 64) = true := by
                simp only [decide_eq_true_eq]
                omega
              have hr2 : decide (128 + (c / 64) % 64 ≤ 159) = true := by
                simp only [decide_eq_true_eq]
                omega
              rw [hr1, hr2, hcont2]
              rfl
            · rw [if_pos (by omega)]
              show (isCont (128 + (c / 64) % 64) && isCont (128 + c % 64) && validUtf8 rest)
                = validUtf8 rest
              have hr1 : isCont (128 + (c / 64) % 64) = true := by
                simp only [isCont, Bool.and_eq_true, decide_eq_true_eq]
                omega
              rw [hr1, hcont2]
              rfl
      · rw [if_neg hC]
        show validUtf8 ((240 + c / 262144) :: (128 + (c / 4096) % 64)
            :: (128 + (c / 64) % 64) :: (128 + c % 64) :: rest) = validUtf8 rest
        have hcont2 : isCont (128 + (c / 64) % 64) = true := by
          simp only [isCont, Bool.and_eq_true, decide_eq_true_eq]
          omega
        have hcont3 : isCont (128 + c % 64) = true := by
          simp only [isCont, Bool.and_eq_true, decide_eq_true_eq]
          omega
        rw [validUtf8_cons, if_neg (by omega), if_neg (by omega), if_neg (by omega),
          if_neg (by omega), if_neg (by omega)]
        by_cases hD : c < 262144
        · rw [if_pos (by omega)]
          show ((decide (144 ≤ 128 + (c / 4096) % 64) && decide (128 + (c / 4096) % 64 ≤ 191))
              && isCont (128 + (c / 64) % 64) && isCont (128 + c % 64) && validUtf8 rest)
            = validUtf8 rest
          have hr1 : decide (144 ≤ 128 + (c / 4096) % 64) = true := by
            simp only [decide_eq_true_eq]
            omega
          have hr2 : decide (128 + (c / 4096) % 64 ≤ 191) = true := by
            simp only [decide_eq_true_eq]
            omega
          rw [hr1, hr2, hcont2, hcont3]
          rfl
        · by_cases hE : c < 1048576
          · rw [if_neg (by omega), if_pos (by omega)]
            show (isCont (128 + (c / 4096) % 64) && isCont (128 + (c / 64) % 64)
                && isCont (128 + c % 64) && validUtf8 rest) = validUtf8 rest
            have hr1 : isCont (128 + (c / 4096) % 64) = true := by
              simp only [isCont, Bool.and_eq_true, decide_eq_true_eq]
              omega
            rw [hr1, hcont2, hcont3]
            rfl
          · rw [if_neg (by omega), if_neg (by omega), if_pos (by omega)]
            show ((decide (128 ≤ 128 + (c / 4096) % 64) && decide (128 + (c / 4096) % 64 ≤ 143))
                && isCont (128 + (c / 64) % 64) && isCont (128 + c % 64) && validUtf8 rest)
              = validUtf8 rest
            have hr1 : decide (128 ≤ 128 + (c / 4096) % 64) = true := by
              simp only [decide_eq_true_eq]
              omega
            have hr2 : decide (128 + (c / 4096) % 64 ≤ 143) = true := by
              simp only [decide_eq_true_eq]
              omega
            rw [hr1, hr2, hcont2, hcont3]
            rfl

theorem validUtf8_utf8Encode {s : List Nat} (h : allScalar s = true) :
    validUtf8 (utf8Encode s) = true := by
  induction s with
  | nil => rfl
  | cons c cs ih =>
    simp only [allScalar, List.all_cons, Bool.and_eq_true] at h
    show validUtf8 (encodeChar c ++ utf8Encode cs) = true
    rw [validUtf8_encodeChar c h.1]
    exact ih h.2

/-- The CP-1252 mapping of the bytes `0x80..0x9F` that differ from their code
points (Python's `bytes.decode("cp1252")`). -/
def cp1252Table : List (Nat × Nat) :=
  [(128, 8364), (130, 8218), (131, 402), (132, 8222), (133, 8230), (134, 8224),
   (135, 8225), (136, 710), (137, 8240), (138, 352), (139, 8249), (140, 338),
   (142, 381), (145, 8216), (146, 8217), (147, 8220), (148, 8221), (149, 8226),
   (150, 8211), (151, 8212), (152, 732), (153, 8482), (154, 353), (155, 8250),
   (156, 339), (158, 382), (159, 376)]

/-- The five bytes undefined in CP-1252, which raise `UnicodeDecodeError`. -/
def cp1252Undefined : List Nat :=
  [129, 141, 143, 144, 157]

/-- Decoding of one byte under CP-1252: undefined bytes fail, remapped bytes
use the table, every other byte maps to its own code point. -/
def cp1252Char (b : Nat) : Option Nat :=
  if b < 256 then
    if b ∈ cp1252Undefined then none
    else
      match cp1252Table.find? (fun p => p.1 == b) with
      | some p => some p.2
      | none => some b
  else none

/-- `data.decode("cp1252")`: per-byte table decoding, failing on any undefined
byte. -/
def cp1252Decode : List Nat → Option (List Nat)
  | [] => some []
  | b :: bs =>
    match cp1252Char b, cp1252Decode bs with
    | some v, some vs => some (v :: vs)
    | _, _ => none

theorem cp1252Char_of_ge {b : Nat} (h : 256 ≤ b) : cp1252Char b = none := by
  unfold cp1252Char
  rw [if_neg (by omega)]

/-- Helper check used to verify the CP-1252 table only yields scalar values. -/
def cp1252CharScalarCheck (b : Nat) : Bool :=
  match cp1252Char b with
  | some v => isScalar v
  | none => true

set_option maxRecDepth 2048 in
theorem cp1252Char_scalar {b v : Nat} (h : cp1252Char b = some v) : isScalar v = true := by
  by_cases hb : b < 256
  · have key : ∀ x, x < 256 → cp1252CharScalarCheck x = true := by decide
    have hk := key b hb
    unfold cp1252CharScalarCheck at hk
    rw [h] at hk
    exact hk
  · rw [cp1252Char_of_ge (by omega)] at h
    cases h

theorem cp1252Decode_scalar : ∀ {d s : List Nat}, cp1252Decode d = some s →
    allScalar s = true := by
  intro d
  induction d with
  | nil =>
    intro s h
    cases h
    rfl
  | cons b bs ih =>
    intro s h
    unfold cp1252Decode at h
    cases hb : cp1252Char b with
    | none => rw [hb] at h; simp at h
    | some v =>
      rw [hb] at h
      cases hr : cp1252Decode bs with
      | none => rw [hr] at h; simp at h
      | some vs =>
        rw [hr] at h
        simp only at h
        cases h
        simp only [allScalar, List.all_cons, Bool.and_eq_true]
        exact ⟨cp1252Char_scalar hb, ih hr⟩

/-- The `chardet` collaborator of `try_ensure_utf8`: `detect` models
`chardet.detect(data)["encoding"]` and `decodeWith` models
`data.decode(encoding)` for the detected encoding (returning the decoded code
points, or `none` for `UnicodeDecodeError`). -/
structure DetectOracle where
  detect : List Nat → Option String
  decodeWith : String → List Nat → Option (List Nat)

/-- `try_ensure_utf8` (utilities.py:219-244): return the data unchanged if it
already decodes as UTF-8; otherwise re-encode the CP-1252 decoding; otherwise
consult chardet and re-encode its decoding; on any failure return the data
as-received. -/
def try_ensure_utf8 (o : DetectOracle) (data : List Nat) : List Nat :=
  if validUtf8 data then data
  else
    match cp1252Decode data with
    | some s => utf8Encode s
    | none =>
      match o.detect data with
      | none => data
      | some enc =>
        match o.decodeWith enc data with
        | some s => utf8Encode s
        | none => data

/-- C9: `try_ensure_utf8` is idempotent (for any behaviour of the external
chardet collaborator whose decodings are real ones, i.e. produce Unicode
scalar values): whenever it transforms its input the result is valid UTF-8, so
a second application returns it unchanged; and when every decoding attempt
fails the input is returned as-is. -/
theorem C9_try_ensure_utf8_idempotent (o : DetectOracle)
    (ho : ∀ e d s, o.decodeWith e d = some s → allScalar s = true) (d : List Nat) :
    try_ensure_utf8 o (try_ensure_utf8 o d) = try_ensure_utf8 o d
    ∧ (try_ensure_utf8 o d ≠ d → validUtf8 (try_ensure_utf8 o d) = true)
    ∧ (validUtf8 d = false → cp1252Decode d = none →
      (∀ e, o.detect d = some e → o.decodeWith e d = none) →
      try_ensure_utf8 o d = d) := by
  cases hv : validUtf8 d with
  | true =>
    have ht : try_ensure_utf8 o d = d := by simp [try_ensure_utf8, hv]
    refine ⟨by rw [ht]; exact ht, fun hne => absurd ht hne, ?_⟩
    intro h1 _ _
    simp at h1
  | false =>
    cases hc : cp1252Decode d with
    | some s =>
      have hs := cp1252Decode_scalar hc
      have ht : try_ensure_utf8 o d = utf8Encode s := by simp [try_ensure_utf8, hv, hc]
      have hvalid : validUtf8 (utf8Encode s) = true := validUtf8_utf8Encode hs
      refine ⟨?_, fun _ => ht ▸ hvalid, ?_⟩
      · rw [ht]
        simp [try_ensure_utf8, hvalid]
      · intro _ h2 _
        simp at h2
    | none =>
      cases hd : o.detect d with
      | none =>
        have ht : try_ensure_utf8 o d = d := by simp [try_ensure_utf8, hv, hc, hd]
        exact ⟨by rw [ht]; exact ht, fun hne => absurd ht hne, fun _ _ _ => ht⟩
      | some enc =>
        cases hw : o.decodeWith enc d with
        | none =>
          have ht : try_ensure_utf8 o d = d := by
            simp [try_ensure_utf8, hv, hc, hd, hw]
          exact ⟨by rw [ht]; exact ht, fun hne => absurd ht hne, fun _ _ _ => ht⟩
        | some s =>
          have hs := ho enc d s hw
          have ht : try_ensure_utf8 o d = utf8Encode s := by
            simp [try_ensure_utf8, hv, hc, hd, hw]
          have hvalid : validUtf8 (utf8Encode s) = true := validUtf8_utf8Encode hs
          refine ⟨?_, fun _ => ht ▸ hvalid, ?_⟩
          · rw [ht]
            simp [try_ensure_utf8, hvalid]
          · intro _ _ h3
            have hcontra := h3 enc rfl
            rw [hw] at hcontra
            cases hcontra

/-- A chardet oracle that never detects an encoding. -/
def nullDetect : DetectOracle :=
  { detect := fun _ => none
    decodeWith := fun _ _ => none }

/-- Witness for C9 on three byte strings: an undecodable one (`0x81`), an
already-UTF-8 one (`0xE2 0x82 0xAC`), and one transformed through CP-1252
(`0x80` → `U+20AC` → `0xE2 0x82 0xAC`). -/
theorem C9_witness :
    try_ensure_utf8 nullDetect (try_ensure_utf8 nullDetect [129]) =
      try_ensure_utf8 nullDetect [129]
    ∧ try_ensure_utf8 nullDetect (try_ensure_utf8 nullDetect [226, 130, 172]) =
      try_ensure_utf8 nullDetect [226, 130, 172]
    ∧ try_ensure_utf8 nullDetect (try_ensure_utf8 nullDetect [128]) =
      try_ensure_utf8 nullDetect [128] := by
  have ho : ∀ e d s, nullDetect.decodeWith e d = some s → allScalar s = true := by
    intro e d s h
    simp [nullDetect] at h
  exact ⟨(C9_try_ensure_utf8_idempotent nullDetect ho [129]).1,
    (C9_try_ensure_utf8_idempotent nullDetect ho [226, 130, 172]).1,
    (C9_try_ensure_utf8_idempotent nullDetect ho [128]).1⟩

/-- Python whitespace characters removed by `str.strip()`. -/
def isPySpace (c : Char) : Bool :=
  c = ' ' || c = '\t' || c = '\n' || c = '\r' || c = '\x0b' || c = '\x0c'

/-- Python `str.strip()`. -/
def pyStrip (s : String) : String :=
  String.mk (((s.data.dropWhile isPySpace).reverse.dropWhile isPySpace).reverse)

def listStarts : List Char → List Char → Bool
  | _, [] => true
  | [], _ :: _ => false
  | c :: cs, p :: ps => c = p && listStarts cs ps

/-- Python `str.startswith(p)`. -/
def pyStartsWith (s p : String) : Bool :=
  listStarts s.data p.data

/-- Python `str(x)` where `x` is an optional string-like: `str(None)` is the
(truthy!) string `"None"`. -/
def pyStrOpt : Option String → String
  | none => "None"
  | some s => s

/-- Python truthiness of an optional string (`None` and `""` are falsy). -/
def truthyOpt : Option String → Bool
  | none => false
  | some s => s ≠ ""

/-- The `langcodes` collaborator: `tag_is_valid`, `Language.get` (a language
modelled by its tag string), and `closest_match(language, languages)[1]`. -/
structure LangOracle where
  tag_is_valid : String → Bool
  langGet : String → String
  distance : String → List String → Nat

/-- `is_close_match` (utilities.py:120-125): drop falsy entries, `False` on an
empty list, else compare the closest-match distance against the configured
maximum.  The threshold `LANGUAGE_MAX_DISTANCE` lives in
`devine.core.constants` (not under `src/`), so it is a parameter here. -/
def is_close_match (o : LangOracle) (maxDistance : Nat) (language : String)
    (languages : List (Option String)) : Bool :=
  let ls := languages.filter truthyOpt
  if ls.isEmpty then false
  else decide (o.distance language (ls.map pyStrOpt) ≤ maxDistance)

/-- The two candidate tags `(str(x) or "").strip()` for
`x in (media.language, language)` (hls.py:147-152). -/
def track_lang_candidates (media_language fallback : Option String) : List String :=
  [pyStrip (pyStrOpt media_language), pyStrip (pyStrOpt fallback)]

/-- The valid-and-not-`und` test applied to each candidate. -/
def lang_candidate_ok (o : LangOracle) (c : String) : Bool :=
  o.tag_is_valid c && !(pyStartsWith c "und")

/-- `track_lang = next((Language.get(option) ...), None)` (hls.py:147-152). -/
def resolve_track_lang (o : LangOracle) (ml fb : Option String) : Option String :=
  ((track_lang_candidates ml fb).find? (lang_candidate_ok o)).map o.langGet

/-- The `ValueError` message assembly of hls.py:153-159: the base message, plus
a note when no fallback was provided, plus the fallback value when the
fallback itself is invalid or starts with `und`. -/
def lang_error_msg (o : LangOracle) (fb : Option String) : String :=
  "Language information could not be derived for a media." ++
    (match fb with
     | none => " No fallback language was provided when calling HLS.to_tracks()."
     | some s =>
       if !(o.tag_is_valid (pyStrip s)) || pyStartsWith s "und" then
         " The fallback language provided is also invalid: " ++ s
       else "")

/-- The language and `is_original_lang` of an emitted MEDIA track
(hls.py:147-166): the resolved tag, or the `ValueError`; `is_original_lang`
is `language and is_close_match(track_lang, [language])`. -/
def media_track_language (o : LangOracle) (maxDistance : Nat) (ml fb : Option String) :
    Except String (String × Bool) :=
  match resolve_track_lang o ml fb with
  | none => .error (lang_error_msg o fb)
  | some tl => .ok (tl, truthyOpt fb && is_close_match o maxDistance tl [fb])

/-- C8: the emitted track's language is the first valid non-`und` candidate
among `[media.language, fallback]`; the conversion fails exactly when neither
candidate passes, the error naming the fallback when one was provided but
invalid; and a media with `LANGUAGE="und"` and fallback `"en"` yields
language `en` with `is_original_lang = true`. -/
theorem C8_language_resolution (o : LangOracle) (maxDistance : Nat) (ml fb : Option String) :
    (lang_candidate_ok o (pyStrip (pyStrOpt ml)) = true →
      ∃ orig, media_track_language o maxDistance ml fb =
        .ok (o.langGet (pyStrip (pyStrOpt ml)), orig))
    ∧ (lang_candidate_ok o (pyStrip (pyStrOpt ml)) = false →
      lang_candidate_ok o (pyStrip (pyStrOpt fb)) = true →
      ∃ orig, media_track_language o maxDistance ml fb =
        .ok (o.langGet (pyStrip (pyStrOpt fb)), orig))
    ∧ ((∃ msg, media_track_language o maxDistance ml fb = .error msg) ↔
      (lang_candidate_ok o (pyStrip (pyStrOpt ml)) = false
        ∧ lang_candidate_ok o (pyStrip (pyStrOpt fb)) = false))
    ∧ (∀ s, fb = some s →
      lang_candidate_ok o (pyStrip (pyStrOpt ml)) = false →
      lang_candidate_ok o (pyStrip s) = false →
      o.tag_is_valid (pyStrip s) = false →
      media_track_language o maxDistance ml fb =
        .error ("Language information could not be derived for a media." ++
          (" The fallback language provided is also invalid: " ++ s)))
    ∧ (ml = some "und" → fb = some "en" → o.tag_is_valid "en" = true →
      o.distance (o.langGet "en") ["en"] ≤ maxDistance →
      media_track_language o maxDistance ml fb = .ok (o.langGet "en", true)) := by
  refine ⟨?_, ?_, ?_, ?_, ?_⟩
  · intro h1
    refine ⟨truthyOpt fb
      && is_close_match o maxDistance (o.langGet (pyStrip (pyStrOpt ml))) [fb], ?_⟩
    simp [media_track_language, resolve_track_lang, track_lang_candidates,
      List.find?_cons, h1]
  · intro h1 h2
    refine ⟨truthyOpt fb
      && is_close_match o maxDistance (o.langGet (pyStrip (pyStrOpt fb))) [fb], ?_⟩
    simp [media_track_language, resolve_track_lang, track_lang_candidates,
      List.find?_cons, h1, h2]
  · constructor
    · rintro ⟨msg, hmsg⟩
      cases h1 : lang_candidate_ok o (pyStrip (pyStrOpt ml)) with
      | true =>
        simp [media_track_language, resolve_track_lang, track_lang_candidates,
          List.find?_cons, h1] at hmsg
      | false =>
        cases h2 : lang_candidate_ok o (pyStrip (pyStrOpt fb)) with
        | true =>
          simp [media_track_language, resolve_track_lang, track_lang_candidates,
            List.find?_cons, h1, h2] at hmsg
        | false => exact ⟨rfl, rfl⟩
    · rintro ⟨h1, h2⟩
      refine ⟨lang_error_msg o fb, ?_⟩
      simp [media_track_language, resolve_track_lang, track_lang_candidates,
        List.find?_cons, h1, h2]
  · intro s hfb h1 h2 htv
    subst hfb
    have es : pyStrip (pyStrOpt (some s)) = pyStrip s := rfl
    simp [media_track_language, resolve_track_lang, track_lang_candidates,
      List.find?_cons, es, h1, h2, lang_error_msg, htv]
  · intro hml hfb htv hdist
    subst hml
    subst hfb
    have e1 : pyStrip (pyStrOpt (some "und")) = "und" := rfl
    have e2 : pyStrip (pyStrOpt (some "en")) = "en" := rfl
    have hc1 : lang_candidate_ok o "und" = false := by
      simp [lang_candidate_ok, pyStartsWith, listStarts]
    have hc2 : lang_candidate_ok o "en" = true := by
      simp [lang_candidate_ok, pyStartsWith, listStarts, htv]
    have hicm : is_close_match o maxDistance (o.langGet "en") [some "en"] = true := by
      simp [is_close_match, truthyOpt, pyStrOpt, hdist]
    simp [media_track_language, resolve_track_lang, track_lang_candidates,
      List.find?_cons, e1, e2, hc1, hc2, truthyOpt, hicm]

/-- A concrete langcodes oracle accepting exactly the tag `"en"`. -/
def enOracle : LangOracle :=
  { tag_is_valid := fun s => s == "en"
    langGet := fun s => s
    distance := fun _ _ => 0 }

/-- Witness for C8: scenario S6, `LANGUAGE="und"` with fallback `"en"`. -/
theorem C8_witness :
    media_track_language enOracle 10 (some "und") (some "en") = .ok ("en", true) := by
  have h := (C8_language_resolution enOracle 10 (some "und") (some "en")).2.2.2.2
    rfl rfl rfl (by decide)
  exact h

/-- ASCII decimal digit test (Python `str.isdigit` on the filename stems the
pipeline generates, which are ASCII). -/
def isDigitChar (c : Char) : Bool :=
  decide (48 ≤ c.toNat) && decide (c.toNat ≤ 57)

/-- Python string comparison (`sorted`): code-point lexicographic order, a
prefix ordering before anything that extends it. -/
def lexLe : List Char → List Char → Bool
  | [], _ => true
  | _ :: _, [] => false
  | a :: as, b :: bs =>
    if a.toNat = b.toNat then lexLe as bs else decide (a.toNat < b.toNat)

/-- A file of the `segments/` working directory: `Path.stem`, `Path.suffix`
and the file bytes. -/
structure FSFile where
  stem : List Char
  suffix : List Char
  content : List Nat
deriving DecidableEq, Repr

/-- The file name, as `sorted(segment_save_dir.iterdir())` compares it. -/
def fname (f : FSFile) : List Char :=
  f.stem ++ f.suffix

/-- Name order on directory entries. -/
def nameLe (f g : FSFile) : Prop :=
  lexLe (fname f) (fname g) = true

instance : DecidableRel nameLe :=
  fun f g => inferInstanceAs (Decidable (lexLe (fname f) (fname g) = true))

theorem lexLe_total (s t : List Char) : lexLe s t = true ∨ lexLe t s = true := by
  induction s generalizing t with
  | nil => exact Or.inl rfl
  | cons a as ih =>
    cases t with
    | nil => exact Or.inr rfl
    | cons b bs =>
      by_cases hab : a.toNat = b.toNat
      · cases ih bs with
        | inl h => left; unfold lexLe; rw [if_pos hab]; exact h
        | inr h => right; unfold lexLe; rw [if_pos hab.symm]; exact h
      · rcases Nat.lt_or_ge a.toNat b.toNat with h | h
        · left
          unfold lexLe
          rw [if_neg hab]
          simpa using h
        · right
          unfold lexLe
          rw [if_neg (Ne.symm hab)]
          simp only [decide_eq_true_eq]
          omega

theorem lexLe_trans : ∀ {s t u : List Char},
    lexLe s t = true → lexLe t u = true → lexLe s u = true := by
  intro s
  induction s with
  | nil => intro t u _ _; rfl
  | cons a as ih =>
    intro t u hst htu
    cases t with
    | nil => exact absurd hst (by simp [lexLe])
    | cons b bs =>
      cases u with
      | nil => exact absurd htu (by simp [lexLe])
      | cons c cs =>
        unfold lexLe at hst htu ⊢
        by_cases hab : a.toNat = b.toNat
        · rw [if_pos hab] at hst
          by_cases hbc : b.toNat = c.toNat
          · rw [if_pos hbc] at htu
            rw [if_pos (hab.trans hbc)]
            exact ih hst htu
          · rw [if_neg hbc] at htu
            simp only [decide_eq_true_eq] at htu
            rw [if_neg (by omega)]
            simp only [decide_eq_true_eq]
            omega
        · rw [if_neg hab] at hst
          simp only [decide_eq_true_eq] at hst
          by_cases hbc : b.toNat = c.toNat
          · rw [if_neg (by omega)]
            simp only [decide_eq_true_eq]
            omega
          · rw [if_neg hbc] at htu
            simp only [decide_eq_true_eq] at htu
            rw [if_neg (by omega)]
            simp only [decide_eq_true_eq]
            omega

instance : IsTotal FSFile nameLe :=
  ⟨fun f g => lexLe_total (fname f) (fname g)⟩

instance : IsTrans FSFile nameLe :=
  ⟨fun _ _ _ h1 h2 => lexLe_trans h1 h2⟩

/-- `sorted(segment_save_dir.iterdir())`: a stable name-ordered sort. -/
def sortByName (dir : List FSFile) : List FSFile :=
  List.insertionSort nameLe dir

/-- `file.stem.isdigit() and first_segment_i <= int(file.stem) <= last_segment_i`
(hls.py:342-346). -/
def segPred (a b : Nat) (f : FSFile) : Bool :=
  (!f.stem.isEmpty && f.stem.all isDigitChar)
    && decide (a ≤ digitsToNat f.stem) && decide (digitsToNat f.stem ≤ b)

/-- Result of a successful flush-decrypt: the collected segment files, the
bytes passed to `drm.decrypt`, and the directory afterwards. -/
structure DecryptOut where
  collected : List FSFile
  merged : List Nat
  newDir : List FSFile
deriving Repr

/-- The inner `decrypt` closure of `download_track` (hls.py:316-365) over the
directory model: collect the digit-stem files of `[first, last]` from the
name-sorted directory, raise `ValueError` when none or not exactly
`last - first + 1` exist, merge them (init bytes first, when cached) deleting
the sources, decrypt in place via the DRM collaborator, and rename to
`<range>_decrypted`. -/
def decrypt_run (dir : List FSFile) (map_data : Option (InitSection × List Nat))
    (drmDecrypt : List Nat → List Nat) (first last : Nat) (w : Nat)
    (uriSuffix : List Char) : Except PyErr DecryptOut :=
  let range_len : Int := (last : Int) - (first : Int) + 1
  let files := (sortByName dir).filter (segPred first last)
  if files.isEmpty then .error .valueError
  else if (files.length : Int) ≠ range_len then .error .valueError
  else
    let initBytes := match map_data with | some md => md.2 | none => []
    let merged := initBytes ++ (files.map FSFile.content).flatten
    let decrypted : FSFile :=
      { stem := zfill (natStr first) w ++ ['-'] ++ zfill (natStr last) w
          ++ ('_' :: 'd' :: 'e' :: 'c' :: 'r' :: 'y' :: 'p' :: 't' :: 'e' :: 'd' :: [])
        suffix := uriSuffix
        content := drmDecrypt merged }
    .ok { collected := files
          merged := merged
          newDir := dir.filter (fun f => !(segPred first last f)) ++ [decrypted] }

theorem digitsToNat_foldl (l : List Char) :
    ∀ acc : Nat, l.foldl (fun a c => a * 10 + (c.toNat - 48)) acc
      = acc * 10 ^ l.length + digitsToNat l := by
  induction l with
  | nil => intro acc; simp [digitsToNat]
  | cons c cs ih =>
    intro acc
    have h1 : (c :: cs).foldl (fun a c => a * 10 + (c.toNat - 48)) acc
        = cs.foldl (fun a c => a * 10 + (c.toNat - 48)) (acc * 10 + (c.toNat - 48)) := rfl
    have h2 : digitsToNat (c :: cs)
        = cs.foldl (fun a c => a * 10 + (c.toNat - 48)) (c.toNat - 48) := by
      simp [digitsToNat]
    rw [h1, ih, h2, ih]
    simp only [List.length_cons, pow_succ]
    ring

theorem digitsToNat_cons (c : Char) (cs : List Char) :
    digitsToNat (c :: cs) = (c.toNat - 48) * 10 ^ cs.length + digitsToNat cs := by
  have h : digitsToNat (c :: cs)
      = cs.foldl (fun a c => a * 10 + (c.toNat - 48)) (c.toNat - 48) := by
    simp [digitsToNat]
  rw [h, digitsToNat_foldl]

theorem digitsToNat_lt_pow {l : List Char} (h : l.all isDigitChar = true) :
    digitsToNat l < 10 ^ l.length := by
  induction l with
  | nil => simp [digitsToNat]
  | cons c cs ih =>
    simp only [List.all_cons, Bool.and_eq_true] at h
    have hd : c.toNat - 48 ≤ 9 := by
      have := h.1
      simp only [isDigitChar, Bool.and_eq_true, decide_eq_true_eq] at this
      omega
    have hv := ih h.2
    rw [digitsToNat_cons]
    calc (c.toNat - 48) * 10 ^ cs.length + digitsToNat cs
        < (c.toNat - 48) * 10 ^ cs.length + 10 ^ cs.length := by omega
      _ = ((c.toNat - 48) + 1) * 10 ^ cs.length := by ring
      _ ≤ 10 * 10 ^ cs.length := Nat.mul_le_mul_right _ (by omega)
      _ = 10 ^ (cs.length + 1) := by ring

theorem lexLe_digits_lt : ∀ (s t u v : List Char),
    s.all isDigitChar = true → t.all isDigitChar = true → s.length = t.length →
    lexLe (s ++ u) (t ++ v) = true → digitsToNat s ≠ digitsToNat t →
    digitsToNat s < digitsToNat t := by
  intro s
  induction s with
  | nil =>
    intro t u v _ _ hlen _ hne
    cases t with
    | nil => exact absurd rfl hne
    | cons b bs => simp at hlen
  | cons a as ih =>
    intro t u v hs ht hlen hlex hne
    cases t with
    | nil => simp at hlen
    | cons b bs =>
      simp only [List.all_cons, Bool.and_eq_true] at hs ht
      simp only [List.length_cons, Nat.succ_inj] at hlen
      have hda : 48 ≤ a.toNat ∧ a.toNat ≤ 57 := by
        have := hs.1
        simp only [isDigitChar, Bool.and_eq_true, decide_eq_true_eq] at this
        exact this
      have hdb : 48 ≤ b.toNat ∧ b.toNat ≤ 57 := by
        have := ht.1
        simp only [isDigitChar, Bool.and_eq_true, decide_eq_true_eq] at this
        exact this
      rw [List.cons_append, List.cons_append] at hlex
      unfold lexLe at hlex
      rw [digitsToNat_cons, digitsToNat_cons, hlen]
      by_cases hab : a.toNat = b.toNat
      · rw [if_pos hab] at hlex
        have hne2 : digitsToNat as ≠ digitsToNat bs := by
          intro heq
          apply hne
          rw [digitsToNat_cons, digitsToNat_cons, hab, heq, hlen]
        have hlt := ih bs u v hs.2 ht.2 hlen hlex hne2
        rw [hab]
        omega
      · rw [if_neg hab] at hlex
        simp only [decide_eq_true_eq] at hlex
        have hbound := digitsToNat_lt_pow hs.2
        have hstep : (a.toNat - 48) + 1 ≤ b.toNat - 48 := by omega
        calc (a.toNat - 48) * 10 ^ bs.length + digitsToNat as
            < (a.toNat - 48) * 10 ^ bs.length + 10 ^ bs.length := by
              rw [← hlen]; omega
          _ = ((a.toNat - 48) + 1) * 10 ^ bs.length := by ring
          _ ≤ (b.toNat - 48) * 10 ^ bs.length := Nat.mul_le_mul_right _ hstep
          _ ≤ (b.toNat - 48) * 10 ^ bs.length + digitsToNat bs := Nat.le_add_right _ _

/-- C5: a flush-decrypt of `[a, b]` collects exactly the directory files whose
stem is a pure integer within `[a, b]`; it raises (`MissingSegments`, a
`ValueError`) exactly when the number of collected files differs from
`b - a + 1` (including when none exist); and on success the merged bytes are
the cached init bytes (once, when present) followed by the segment files'
bytes in ascending index order, the source files being deleted.  The width and
distinctness hypotheses reflect Phase 1's uniformly zero-padded, per-index
unique filenames, which the lexicographic collection order relies on. -/
theorem C5_flush_decrypt (dir : List FSFile) (map_data : Option (InitSection × List Nat))
    (drmDecrypt : List Nat → List Nat) (a b w : Nat) (suf : List Char)
    (hab : a ≤ b)
    (hw : ∀ f ∈ dir, segPred a b f = true → f.stem.length = w)
    (hnd : (dir.filter (segPred a b)).Pairwise
      (fun f g => digitsToNat f.stem ≠ digitsToNat g.stem)) :
    (∀ f, f ∈ (sortByName dir).filter (segPred a b) ↔ (f ∈ dir ∧ segPred a b f = true))
    ∧ ((∃ out, decrypt_run dir map_data drmDecrypt a b w suf = .ok out) ↔
        (dir.filter (segPred a b)).length = b - a + 1)
    ∧ (∀ out, decrypt_run dir map_data drmDecrypt a b w suf = .ok out →
        out.collected.Perm (dir.filter (segPred a b))
        ∧ out.collected.Pairwise (fun f g => digitsToNat f.stem < digitsToNat g.stem)
        ∧ out.merged = (match map_data with | some md => md.2 | none => [])
            ++ (out.collected.map FSFile.content).flatten
        ∧ (∀ f ∈ out.newDir, segPred a b f = false)) := by
  have hperm : List.Perm (sortByName dir) dir := List.perm_insertionSort nameLe dir
  have hpermf : List.Perm ((sortByName dir).filter (segPred a b))
      (dir.filter (segPred a b)) := hperm.filter (segPred a b)
  have hmem : ∀ f, f ∈ (sortByName dir).filter (segPred a b)
      ↔ (f ∈ dir ∧ segPred a b f = true) := by
    intro f
    rw [List.mem_filter, hperm.mem_iff]
  have hlen_eq : ((sortByName dir).filter (segPred a b)).length
      = (dir.filter (segPred a b)).length := hpermf.length_eq
  refine ⟨hmem, ?_, ?_⟩
  · constructor
    · rintro ⟨out, hout⟩
      simp only [decrypt_run] at hout
      split at hout
      · exact absurd hout (by simp)
      · split at hout
        · exact absurd hout (by simp)
        · rename_i hemp hlen
          rw [← hlen_eq]
          omega
    · intro hcount
      have hlen2 : ((sortByName dir).filter (segPred a b)).length = b - a + 1 := by
        rw [hlen_eq]
        exact hcount
      have hne : ((sortByName dir).filter (segPred a b)).isEmpty = false := by
        cases hF : (sortByName dir).filter (segPred a b) with
        | nil => rw [hF] at hlen2; simp at hlen2
        | cons x xs => rfl
      cases hres : decrypt_run dir map_data drmDecrypt a b w suf with
      | ok out => exact ⟨out, rfl⟩
      | error e =>
        exfalso
        simp only [decrypt_run] at hres
        split at hres
        · rename_i hemp
          rw [hne] at hemp
          cases hemp
        · split at hres
          · rename_i hemp hlen
            apply hlen
            rw [hlen2]
            push_cast
            omega
          · exact absurd hres (by simp)
  · intro out hout
    simp only [decrypt_run] at hout
    split at hout
    · exact absurd hout (by simp)
    · split at hout
      · exact absurd hout (by simp)
      · rename_i hemp hlen
        cases hout
        refine ⟨hpermf, ?_, rfl, ?_⟩
        · have hsorted : List.Pairwise nameLe (sortByName dir) :=
            List.sorted_insertionSort nameLe dir
          have hsF : List.Pairwise nameLe ((sortByName dir).filter (segPred a b)) :=
            hsorted.sublist (List.filter_sublist _)
          have hndF : ((sortByName dir).filter (segPred a b)).Pairwise
              (fun f g => digitsToNat f.stem ≠ digitsToNat g.stem) :=
            (hpermf.pairwise_iff (fun h => Ne.symm h)).mpr hnd
          refine (hsF.and hndF).imp_of_mem ?_
          intro f g hf hg hfg
          have hfd := (hmem f).mp hf
          have hgd := (hmem g).mp hg
          have hfw := hw f hfd.1 hfd.2
          have hgw := hw g hgd.1 hgd.2
          have hfdig : f.stem.all isDigitChar = true := by
            have hx := hfd.2
            simp only [segPred, Bool.and_eq_true] at hx
            exact hx.1.1.2
          have hgdig : g.stem.all isDigitChar = true := by
            have hx := hgd.2
            simp only [segPred, Bool.and_eq_true] at hx
            exact hx.1.1.2
          exact lexLe_digits_lt f.stem g.stem f.suffix g.suffix hfdig hgdig
            (hfw.trans hgw.symm) hfg.1 hfg.2
        · intro f hf
          rcases List.mem_append.mp hf with hf1 | hf2
          · have hx := List.mem_filter.mp hf1
            simpa using hx.2
          · simp only [List.mem_singleton] at hf2
            subst hf2
            have hdash : isDigitChar '-' = false := by decide
            simp [segPred, List.all_append, hdash]

def f00 : FSFile := { stem := String.data "00", suffix := String.data ".ts", content := [1, 2] }

def f01 : FSFile := { stem := String.data "01", suffix := String.data ".ts", content := [3] }

def sampleInit : InitSection := { uri := "init.mp4", byterange := none }

/-- The expected flush-decrypt result on the two-file sample directory. -/
def c5SampleOut : DecryptOut :=
  { collected := [f00, f01]
    merged := [9, 1, 2, 3]
    newDir := [{ stem := String.data "00-01_decrypted"
                 suffix := String.data ".ts"
                 content := [9, 1, 2, 3] }] }

/-- Witness for C5: directory listed out of order (`01` before `00`), init
bytes `[9]` prefixed once, contents in ascending index order, sources gone. -/
theorem C5_witness :
    decrypt_run [f01, f00] (some (sampleInit, [9])) id 0 1 2 (String.data ".ts")
      = .ok c5SampleOut
    ∧ c5SampleOut.collected.Pairwise (fun f g => digitsToNat f.stem < digitsToNat g.stem)
    ∧ c5SampleOut.merged = (match some (sampleInit, ([9] : List Nat)) with
        | some md => md.2
        | none => []) ++ (c5SampleOut.collected.map FSFile.content).flatten := by
  have h := (C5_flush_decrypt [f01, f00] (some (sampleInit, [9])) id 0 1 2
    (String.data ".ts") (by decide) (by decide) (by decide)).2.2 c5SampleOut rfl
  exact ⟨rfl, h.2.1, h.2.2.1⟩
